import Mathlib

/-!
# Verification of the transcript-synchronizer alignment engine

A shallow embedding of the JavaScript alignment engine
(`TextAligner` in the aligner module and `SRTParser` in `srt-parser.js`)
of the transcript-synchronizer repository, together with theorems settling
the specification claims.

Modelling conventions:
* JavaScript strings are `List Char`; regular-expression-based operations
  (`replace(/\s+/g, ' ')`, `split(/\s+/)`, the sentence matcher
  `/[^.!?]+[.!?]+/g`) are modelled by equivalent character-level scans.
  Case folding and the `\w`/`\s`/digit character classes are modelled on
  the ASCII range, which covers every string the algorithms construct.
* JavaScript numbers are modelled exactly: millisecond values as `Int`,
  fractional intermediate values (similarity scores, interpolation) as `ℚ`.
  `Math.round`, `Math.floor`, `Math.min`/`Math.max` are modelled exactly.
* `Number(s)` applied to a string is modelled as `Option Int`
  (`none` standing for `NaN`), correct for decimal-digit strings and the
  empty string (`Number("") = 0`), which are the inputs these code paths
  produce; all other strings are conservatively sent to `none`.
-/

namespace TSync

abbrev Str := List Char

/-- ASCII whitespace, modelling the `\s` class for the inputs at hand. -/
def isWsChar (c : Char) : Bool :=
  c = ' ' || c = '\t' || c = '\n' || c = '\r'

/-- The JavaScript `\w` class: `[A-Za-z0-9_]`. -/
def isWordChar (c : Char) : Bool :=
  c.isAlphanum || c = '_'

/-- `text.replace(/\s+/g, ' ')`: collapse every whitespace run to one space. -/
def collapseWs (l : Str) : Str :=
  (l.foldl (fun (acc : Str × Bool) c =>
    if isWsChar c then
      if acc.2 then acc else (acc.1 ++ [' '], true)
    else (acc.1 ++ [c], false)) ([], false)).1

/-- `.replace(/[“”]/g, '"')` followed by `.replace(/[‘’]/g, "'")`. -/
def mapQuotes (l : Str) : Str :=
  l.map (fun c =>
    if c = '“' || c = '”' then '"'
    else if c = '‘' || c = '’' then '\'' else c)

/-- `.replace(/[^\w\s'"]/g, '')`: keep word chars, whitespace and quotes. -/
def stripNonWord (l : Str) : Str :=
  l.filter (fun c => isWordChar c || isWsChar c || c = '\'' || c = '"')

/-- `.trim()`: strip leading and trailing whitespace. -/
def trimChars (l : Str) : Str :=
  ((l.dropWhile isWsChar).reverse.dropWhile isWsChar).reverse

/-- `TextAligner.cleanText`: collapse whitespace, straighten curly quotes,
strip everything but word chars / whitespace / quotes, lowercase, trim. -/
def cleanText (l : Str) : Str :=
  trimChars ((stripNonWord (mapQuotes (collapseWs l))).map Char.toLower)

/-- `s.split(/\s+/)`: fields separated by whitespace runs.  A leading
(resp. trailing) run contributes a leading (trailing) empty field, and the
empty string yields `[""]`, exactly as in JavaScript. -/
def splitWs (l : Str) : List Str :=
  let st := l.foldl (fun (acc : List Str × Str × Bool) c =>
    if isWsChar c then
      if acc.2.2 then acc else (acc.1 ++ [acc.2.1], [], true)
    else (acc.1, acc.2.1 ++ [c], false)) ([], [], false)
  st.1 ++ [st.2.1]

/-- Tokens of a raw text: `this.cleanText(text).split(/\s+/)`. -/
def wordsOf (l : Str) : List Str :=
  splitWs (cleanText l)

/-- `s.split(c)` for a single separator character (used for `','`, `':'`,
`' '`). -/
def splitOnChar (sep : Char) : Str → List Str
  | [] => [[]]
  | c :: rest =>
    if c = sep then [] :: splitOnChar sep rest
    else
      match splitOnChar sep rest with
      | [] => [[c]]
      | f :: fs => (c :: f) :: fs

/-- `arr.join(' ')`. -/
def joinSpace : List Str → Str
  | [] => []
  | [x] => x
  | x :: xs => x ++ ' ' :: joinSpace xs

/-! ## Time codec (`SRTParser.timeToMs` / `SRTParser.msToTime`) -/

/-- Decimal digits of `n`, most significant first (`fuel`-driven; `fuel > n`
suffices). -/
def natDigitsAux : Nat → Nat → Str
  | 0, _ => []
  | fuel + 1, n =>
    if n < 10 then [Char.ofNat (48 + n)]
    else natDigitsAux fuel (n / 10) ++ [Char.ofNat (48 + n % 10)]

/-- `String(n)` for a natural number. -/
def natDigits (n : Nat) : Str :=
  natDigitsAux (n + 1) n

/-- `String(i)` for an integer. -/
def jsIntToString (i : Int) : Str :=
  if i < 0 then '-' :: natDigits i.natAbs else natDigits i.toNat

/-- `s.padStart(k, c)`. -/
def padStartChars (k : Nat) (c : Char) (l : Str) : Str :=
  List.replicate (k - l.length) c ++ l

/-- Digit-string value: `foldl (acc*10 + digit) 0`. -/
def parseNat (l : Str) : Nat :=
  l.foldl (fun acc c => acc * 10 + (c.toNat - 48)) 0

/-- `Number(s)` restricted to decimal-digit strings; `none` models `NaN`.
`Number("") = 0` (the empty string is vacuously all-digits). -/
def jsNum (l : Str) : Option Int :=
  if l.all Char.isDigit then some (parseNat l : Int) else none

/-- `SRTParser.msToTime`: `Math.floor` is `Int.fdiv` and JavaScript `%` is
`Int.tmod` (both agree with Nat division for non-negative input). -/
def msToTime (ms : Int) : Str :=
  let hours := Int.fdiv ms 3600000
  let minutes := Int.fdiv (Int.tmod ms 3600000) 60000
  let seconds := Int.fdiv (Int.tmod ms 60000) 1000
  let millis := Int.tmod ms 1000
  padStartChars 2 '0' (jsIntToString hours) ++ ':' ::
    (padStartChars 2 '0' (jsIntToString minutes) ++ ':' ::
      (padStartChars 2 '0' (jsIntToString seconds) ++ ',' ::
        padStartChars 3 '0' (jsIntToString millis)))

/-- `SRTParser.timeToMs`: split on `','` then `':'`, coerce each part with
`Number`, combine.  Missing parts behave like `Number(undefined) = NaN`. -/
def timeToMs (time : Str) : Option Int :=
  let parts := splitOnChar ',' time
  let hms := parts.getD 0 []
  let hmsParts := splitOnChar ':' hms
  match (hmsParts.get? 0).bind jsNum, (hmsParts.get? 1).bind jsNum,
      (hmsParts.get? 2).bind jsNum, (parts.get? 1).bind jsNum with
  | some h, some m, some s, some r => some (h * 3600000 + m * 60000 + s * 1000 + r)
  | _, _, _, _ => none

/-- The fixed `HH:MM:SS,mmm` shape (the timestamp half of the pattern
`/(\d{2}:\d{2}:\d{2},\d{3})/` used by `SRTParser.parseSRT`). -/
def isTimestampPattern (l : Str) : Bool :=
  match l with
  | [a, b, c, d, e, f, g, h, i, j, k, m] =>
    a.isDigit && b.isDigit && (c == ':') && d.isDigit && e.isDigit &&
      (f == ':') && g.isDigit && h.isDigit && (i == ',') &&
      j.isDigit && k.isDigit && m.isDigit
  | _ => false

/-! ## Data model -/

/-- One parsed SRT subtitle (a timed entry). -/
structure Subtitle where
  index : Int
  startTime : Str
  endTime : Str
  startMs : Int
  endMs : Int
  text : Str
  deriving Repr, DecidableEq

/-- One speaker turn of the corrected (PDF) transcript. -/
structure RefTurn where
  speaker : Str
  text : Str
  deriving Repr, DecidableEq

/-- A pass-1 anchor. -/
structure Anchor where
  pdfIndex : Nat
  speaker : Str
  startMs : Int
  endMs : Int
  confidence : ℚ
  deriving Repr, DecidableEq

/-- A window-search result (`findBestMatch`'s return object). -/
structure BestMatch where
  startIndex : Nat
  endIndex : Nat
  startTime : Str
  endTime : Str
  startMs : Int
  endMs : Int
  confidence : ℚ
  rangeSize : Nat
  deriving Repr, DecidableEq

/-- An output segment (aligned or reshaped). -/
structure Segment where
  speaker : Str
  text : Str
  startTime : Str
  endTime : Str
  startMs : Int
  endMs : Int
  deriving Repr, DecidableEq

def dummySub : Subtitle := ⟨0, [], [], 0, 0, []⟩

def dummyTurn : RefTurn := ⟨[], []⟩

def dummySeg : Segment := ⟨[], [], [], [], 0, 0⟩

/-! ## Similarity scorer (`TextAligner.calculateSimilarity`) -/

/-- `new Set(arr)` keeps each element's first occurrence. -/
def jsSet (l : List Str) : List Str :=
  l.foldl (fun acc x => if x ∈ acc then acc else acc ++ [x]) []

/-- The two-pointer sequential match count: walk `words1`; on a hit against
the current `words2` cursor, count it and advance the cursor. -/
def seqMatches : List Str → List Str → Nat
  | [], _ => 0
  | _ :: _, [] => 0
  | a :: as, b :: bs =>
    if a = b then seqMatches as bs + 1 else seqMatches as (b :: bs)

/-- `TextAligner.calculateSimilarity`: Jaccard overlap of the unique-token
sets, length ratio, and sequential score, combined 0.5/0.2/0.3. -/
def calculateSimilarity (words1 words2 : List Str) : ℚ :=
  let set1 := jsSet words1
  let set2 := jsSet words2
  let inter := set1.filter (fun x => decide (x ∈ set2))
  let union := jsSet (set1 ++ set2)
  let jaccardScore : ℚ := (inter.length : ℚ) / (union.length : ℚ)
  let lengthScore : ℚ :=
    (min words1.length words2.length : ℚ) / (max words1.length words2.length : ℚ)
  let sequentialScore : ℚ :=
    (seqMatches words1 words2 : ℚ) / (max words1.length words2.length : ℚ)
  jaccardScore * (1/2) + lengthScore * (1/5) + sequentialScore * (3/10)

/-! ## Window search (`TextAligner.findBestMatch`) -/

/-- The candidate span `srtSubtitles.slice(i, j + 1)`. -/
def srtRange (srt : List Subtitle) (i j : Nat) : List Subtitle :=
  (srt.drop i).take (j + 1 - i)

/-- Raw (pre-penalty) similarity of the target words against the candidate
span `[i, j]`: `calculateSimilarity(pdfWords, cleanText(joined).split(/\s+/))`. -/
def candidateRaw (pdfWords : List Str) (srt : List Subtitle) (i j : Nat) : ℚ :=
  calculateSimilarity pdfWords (wordsOf (joinSpace ((srtRange srt i j).map (·.text))))

/-- The match record stored for candidate `[i, j]` with raw score `raw`. -/
def mkBestMatch (srt : List Subtitle) (i j : Nat) (raw : ℚ) : BestMatch :=
  let r := srtRange srt i j
  { startIndex := i
    endIndex := j
    startTime := (r.headD dummySub).startTime
    endTime := (r.getLastD dummySub).endTime
    startMs := (r.headD dummySub).startMs
    endMs := (r.getLastD dummySub).endMs
    confidence := raw
    rangeSize := j - i + 1 }

/-- Search state: best penalized score so far, best match so far, and
whether a `break` has fired. -/
structure BMState where
  bestScore : ℚ
  bestMatch : Option BestMatch
  stop : Bool
  deriving Repr, DecidableEq

/-- Body of the inner `j` loop of `findBestMatch`: score candidate `[i, j]`,
apply the size penalty (2% per entry beyond 15), update the best, and break
on a very good, reasonably sized match. -/
def innerStep (pdfWords : List Str) (srt : List Subtitle) (i : Nat)
    (s : BMState) (j : Nat) : BMState :=
  if s.stop then s
  else
    let rawScore := candidateRaw pdfWords srt i j
    let rangeSize := j - i + 1
    let sizePenalty : ℚ :=
      if 15 < rangeSize then 1 - ((rangeSize : ℚ) - 15) * (1/50) else 1
    let score := rawScore * sizePenalty
    let s' :=
      if s.bestScore < score then
        { bestScore := score, bestMatch := some (mkBestMatch srt i j rawScore),
          stop := s.stop }
      else s
    if 3/4 < score ∧ rangeSize ≤ 20 then { s' with stop := true } else s'

/-- Body of the outer `i` loop of `findBestMatch`: run the inner loop, then
break once the best score is very good. -/
def outerStep (pdfWords : List Str) (srt : List Subtitle)
    (s : BMState) (i : Nat) : BMState :=
  if s.stop then s
  else
    let s' := (List.range' i (min (i + 30) srt.length - i)).foldl
      (innerStep pdfWords srt i) s
    if 3/4 < s'.bestScore then { s' with stop := true } else s'

/-- The outer loop's starting positions `i`. -/
def outerIdxs (srt : List Subtitle) (startIndex : Nat) : List Nat :=
  let windowSize := min 30 (srt.length - startIndex)
  List.range' startIndex (min (startIndex + windowSize) srt.length - startIndex)

/-- Every candidate `(i, j)` the nested loops enumerate. -/
def candidatePairs (srt : List Subtitle) (startIndex : Nat) : List (Nat × Nat) :=
  (outerIdxs srt startIndex).flatMap
    (fun i => (List.range' i (min (i + 30) srt.length - i)).map (fun j => (i, j)))

/-- `TextAligner.findBestMatch`: bounded nested search over candidate spans;
the final answer is kept only if its *raw* confidence clears 0.25. -/
def findBestMatch (pdfWords : List Str) (srt : List Subtitle)
    (startIndex : Nat) : Option BestMatch :=
  let final := (outerIdxs srt startIndex).foldl (outerStep pdfWords srt)
    ⟨0, none, false⟩
  match final.bestMatch with
  | some m => if 1/4 ≤ m.confidence then some m else none
  | none => none

/-- Specification of a window-search match: its span is one of the
enumerated candidate pairs, its `confidence` field is the *raw*
(pre-penalty) similarity of that very span, and its timestamps are those of
the span's first and last entries. -/
def MatchSpec (pdfWords : List Str) (srt : List Subtitle) (startIndex : Nat)
    (m : BestMatch) : Prop :=
  (m.startIndex, m.endIndex) ∈ candidatePairs srt startIndex ∧
    m.confidence = candidateRaw pdfWords srt m.startIndex m.endIndex ∧
    m.startMs = (srt.getD m.startIndex dummySub).startMs ∧
    m.endMs = (srt.getD m.endIndex dummySub).endMs

/-- The search-state invariant: any recorded best match satisfies
`MatchSpec`. -/
def bmP (pdfWords : List Str) (srt : List Subtitle) (startIndex : Nat)
    (s : BMState) : Prop :=
  ∀ m, s.bestMatch = some m → MatchSpec pdfWords srt startIndex m

/-! ## Front-matter skipper (`TextAligner.findTranscriptStart`)

The source also assembles `firstSrtWords` from the first five subtitles but
never uses it (dead code); it is omitted here. -/

/-- One probe of `findTranscriptStart` at turn `i`: once a start has been
found it is kept; a turn with fewer than 5 tokens is skipped (`continue`);
otherwise the turn is accepted when its best match from SRT index 0 has
confidence at least 0.4. -/
def ftsStep (pdfSegments : List RefTurn) (srt : List Subtitle)
    (acc : Option Nat) (i : Nat) : Option Nat :=
  match acc with
  | some _ => acc
  | none =>
    let pdfWords := wordsOf (pdfSegments.getD i dummyTurn).text
    if pdfWords.length < 5 then none
    else
      match findBestMatch pdfWords srt 0 with
      | some m => if 2/5 ≤ m.confidence then some i else none
      | none => none

/-- `TextAligner.findTranscriptStart`: probe the first `min(20, N)` turns
in order with `ftsStep`; default to 0 when none clears the floor. -/
def findTranscriptStart (pdfSegments : List RefTurn) (srt : List Subtitle) : Nat :=
  let limit := min 20 pdfSegments.length
  let r := (List.range limit).foldl (ftsStep pdfSegments srt) none
  r.getD 0

/-! ## Two-pass aligner (`TextAligner.align`) -/

/-- Pass-1 state: the SRT cursor, the anchors found so far, and whether the
`break` (cursor within 5 of the end) has fired. -/
structure Pass1State where
  srtIndex : Nat
  anchors : List Anchor
  done : Bool
  deriving Repr, DecidableEq

def pass1Init : Pass1State := ⟨0, [], false⟩

/-- One iteration of pass 1 for reference turn `i`: stop when the cursor is
within 5 of the SRT end; otherwise anchor on a match with confidence ≥ 0.45
and jump the cursor past the span, or advance the cursor by one (clamped). -/
def pass1Step (pdfSegments : List RefTurn) (srt : List Subtitle)
    (s : Pass1State) (i : Nat) : Pass1State :=
  if s.done then s
  else if (s.srtIndex : Int) ≥ (srt.length : Int) - 5 then { s with done := true }
  else
    let pdfSegment := pdfSegments.getD i dummyTurn
    let pdfWords := wordsOf pdfSegment.text
    match findBestMatch pdfWords srt s.srtIndex with
    | some m =>
      if 9/20 ≤ m.confidence then
        { srtIndex := m.endIndex + 1
          anchors := s.anchors ++
            [{ pdfIndex := i, speaker := pdfSegment.speaker,
               startMs := m.startMs, endMs := m.endMs,
               confidence := m.confidence }]
          done := false }
      else { s with srtIndex := min (s.srtIndex + 1) (srt.length - 1) }
    | none => { s with srtIndex := min (s.srtIndex + 1) (srt.length - 1) }

/-- The turn indexes pass 1 and pass 2 walk: `startIndex` to the end. -/
def turnIdxs (pdfSegments : List RefTurn) (startIndex : Nat) : List Nat :=
  List.range' startIndex (pdfSegments.length - startIndex)

/-- Pass 1: fold the step over all turns from `startIndex`. -/
def pass1 (pdfSegments : List RefTurn) (srt : List Subtitle)
    (startIndex : Nat) : Pass1State :=
  (turnIdxs pdfSegments startIndex).foldl (pass1Step pdfSegments srt) pass1Init

/-- `Math.round`: round half toward positive infinity. -/
def jsRound (q : ℚ) : Int := ⌊q + 1/2⌋

/-- The `for (const anchor of anchors)` scan of `interpolateTimestamp`:
remember the last anchor before `pdfIndex`, stop at the first after it. -/
def findPrevNext (pdfIndex : Nat) : List Anchor → Option Anchor →
    Option Anchor × Option Anchor
  | [], prev => (prev, none)
  | a :: rest, prev =>
    if a.pdfIndex < pdfIndex then findPrevNext pdfIndex rest (some a)
    else if pdfIndex < a.pdfIndex then (prev, some a)
    else findPrevNext pdfIndex rest prev

/-- `TextAligner.interpolateTimestamp`: place a non-anchored turn using the
neighbouring anchors (or even spacing when there are none). -/
def interpolateTimestamp (pdfIndex : Nat) (anchors : List Anchor)
    (totalDurationMs : Int) (totalSegments : Nat) (startIndex : Nat) :
    Int × Int :=
  if anchors = [] then
    let avgDuration : ℚ := (totalDurationMs : ℚ) / (totalSegments : ℚ)
    let relativeIndex : ℚ := (pdfIndex : ℚ) - (startIndex : ℚ)
    let s := jsRound (relativeIndex * avgDuration)
    let e := jsRound ((s : ℚ) + min 3000 (avgDuration * (4/5)))
    (s, e)
  else
    match findPrevNext pdfIndex anchors none with
    | (some prevAnchor, some nextAnchor) =>
      let segmentsBetween : ℚ := (nextAnchor.pdfIndex : ℚ) - (prevAnchor.pdfIndex : ℚ)
      let position : ℚ := (pdfIndex : ℚ) - (prevAnchor.pdfIndex : ℚ)
      let frac : ℚ := position / segmentsBetween
      let timeDiff : ℚ := (nextAnchor.startMs : ℚ) - (prevAnchor.endMs : ℚ)
      let s := jsRound ((prevAnchor.endMs : ℚ) + timeDiff * frac)
      let duration : ℚ := min 3000 (timeDiff / segmentsBetween * (4/5))
      let e := jsRound ((s : ℚ) + duration)
      (s, e)
    | (none, some nextAnchor) =>
      let timeAvailable : ℚ := (nextAnchor.startMs : ℚ)
      let avgDuration : ℚ :=
        timeAvailable / ((nextAnchor.pdfIndex : ℚ) - (startIndex : ℚ))
      let relativeIndex : ℚ := (pdfIndex : ℚ) - (startIndex : ℚ)
      let s := jsRound (max 0 (relativeIndex * avgDuration))
      let e := jsRound ((s : ℚ) + min 3000 (avgDuration * (4/5)))
      (s, e)
    | (some prevAnchor, none) =>
      let segmentsAfter : ℚ :=
        ((startIndex : ℚ) + (totalSegments : ℚ) - 1) - (prevAnchor.pdfIndex : ℚ)
      let timeRemaining : ℚ := (totalDurationMs : ℚ) - (prevAnchor.endMs : ℚ)
      let avgDuration : ℚ := timeRemaining / segmentsAfter
      let position : ℚ := (pdfIndex : ℚ) - (prevAnchor.pdfIndex : ℚ)
      let s := jsRound ((prevAnchor.endMs : ℚ) + position * avgDuration)
      let e := jsRound ((s : ℚ) + min 3000 (avgDuration * (4/5)))
      (s, e)
    | (none, none) =>
      let avgDuration : ℚ := (totalDurationMs : ℚ) / (totalSegments : ℚ)
      let relativeIndex : ℚ := (pdfIndex : ℚ) - (startIndex : ℚ)
      let s := jsRound (relativeIndex * avgDuration)
      let e := jsRound ((s : ℚ) + 3000)
      (s, e)

/-- The pass-2 output segment for reference turn `i`. -/
def pass2Segment (pdfSegments : List RefTurn) (anchors : List Anchor)
    (totalDurationMs : Int) (totalSegments : Nat) (startIndex : Nat)
    (i : Nat) : Segment :=
  let pdfSegment := pdfSegments.getD i dummyTurn
  match anchors.find? (fun a => a.pdfIndex == i) with
  | some a =>
    { speaker := pdfSegment.speaker
      text := pdfSegment.text
      startTime := msToTime a.startMs
      endTime := msToTime a.endMs
      startMs := a.startMs
      endMs := a.endMs }
  | none =>
    let ip := interpolateTimestamp i anchors totalDurationMs totalSegments startIndex
    { speaker := pdfSegment.speaker
      text := pdfSegment.text
      startTime := msToTime ip.1
      endTime := msToTime ip.2
      startMs := ip.1
      endMs := ip.2 }

/-- `TextAligner.align`: detect the transcript start, run pass 1 to collect
anchors, then emit one segment per remaining turn (anchored or interpolated). -/
def align (pdfSegments : List RefTurn) (srt : List Subtitle) : List Segment :=
  let startIndex := findTranscriptStart pdfSegments srt
  let anchors := (pass1 pdfSegments srt startIndex).anchors
  let totalDurationMs := (srt.getLastD dummySub).endMs
  let totalSegments := pdfSegments.length - startIndex
  (turnIdxs pdfSegments startIndex).map
    (pass2Segment pdfSegments anchors totalDurationMs totalSegments startIndex)

/-! ## Segment reshaper (`splitTextIntoChunks`, `splitLongSegments`,
`filterSpeakerChanges`, `processSegments`) -/

def isTermChar (c : Char) : Bool :=
  c = '.' || c = '!' || c = '?'

/-- `text.match(/[^.!?]+[.!?]+/g)`: the maximal left-to-right matches of
"a run of non-terminators followed by a run of terminators".  Leading
terminators and a trailing unterminated run are not matched.  Returns `[]`
where JavaScript returns `null`. -/
def sentencesOf (l : Str) : List Str :=
  let st := l.foldl (fun (acc : List Str × Str × Bool) c =>
    if acc.2.1 = [] then
      if isTermChar c then acc else (acc.1, [c], false)
    else if acc.2.2 then
      if isTermChar c then (acc.1, acc.2.1 ++ [c], true)
      else (acc.1 ++ [acc.2.1], [c], false)
    else
      if isTermChar c then (acc.1, acc.2.1 ++ [c], true)
      else (acc.1, acc.2.1 ++ [c], false)) ([], [], false)
  if st.2.2 then st.1 ++ [st.2.1] else st.1

/-- `SRTParser.splitTextIntoChunks`: pack whole sentences into chunks of at
most `maxLength` characters; fall back to word packing, and finally to the
whole text. -/
def splitTextIntoChunks (text : Str) (maxLength : Nat := 200) : List Str :=
  let sentences := let m := sentencesOf text; if m = [] then [text] else m
  let st := sentences.foldl (fun (acc : List Str × Str) sentence =>
    if maxLength < (acc.2 ++ sentence).length ∧ acc.2 ≠ [] then
      (acc.1 ++ [trimChars acc.2], sentence)
    else (acc.1, acc.2 ++ sentence)) ([], [])
  let chunks := if st.2 ≠ [] then st.1 ++ [trimChars st.2] else st.1
  let chunks :=
    if chunks = [] then
      let words := splitOnChar ' ' text
      let st := words.foldl (fun (acc : List Str × Str) word =>
        if maxLength < (acc.2 ++ ' ' :: word).length ∧ acc.2 ≠ [] then
          (acc.1 ++ [trimChars acc.2], word)
        else (acc.1, acc.2 ++ (if acc.2 ≠ [] then ' ' :: word else word))) ([], [])
      if st.2 ≠ [] then st.1 ++ [trimChars st.2] else st.1
    else chunks
  if chunks = [] then [text] else chunks

/-- The chunk segments emitted for one overlong segment. -/
def chunkSegments (segment : Segment) (chunks : List Str) : List Segment :=
  let duration := segment.endMs - segment.startMs
  let timePerChunk : ℚ := (duration : ℚ) / (chunks.length : ℚ)
  chunks.enum.map (fun p =>
    let startMs := jsRound ((segment.startMs : ℚ) + timePerChunk * (p.1 : ℚ))
    let endMs :=
      if p.1 = chunks.length - 1 then segment.endMs
      else jsRound ((segment.startMs : ℚ) + timePerChunk * ((p.1 : ℚ) + 1))
    { speaker := segment.speaker
      text := p.2
      startTime := msToTime startMs
      endTime := msToTime endMs
      startMs := startMs
      endMs := endMs })

/-- `TextAligner.splitLongSegments`: segments at most 2 minutes pass through;
longer ones are replaced by their text chunks with the duration divided
equally (the final chunk reuses the original `endMs`). -/
def splitLongSegments (segments : List Segment) : List Segment :=
  segments.flatMap (fun segment =>
    if segment.endMs - segment.startMs ≤ 120000 then [segment]
    else chunkSegments segment (splitTextIntoChunks segment.text))

/-- `TextAligner.processSegments`: keep segments separate, then split any
longer than 2 minutes (the `options` argument is unused). -/
def processSegments (segments : List Segment) : List Segment :=
  splitLongSegments segments

/-- The accumulator walk of `filterSpeakerChanges`: `cur` is the running
merged segment (`currentSegment`). -/
def fscGo : Option Segment → List Segment → List Segment
  | none, [] => []
  | some cur, [] => [cur]
  | none, s :: rest => fscGo (some s) rest
  | some cur, s :: rest =>
    if cur.speaker = s.speaker then
      fscGo (some { cur with
        text := cur.text ++ ' ' :: s.text
        endTime := s.endTime
        endMs := s.endMs }) rest
    else cur :: fscGo (some s) rest

/-- `TextAligner.filterSpeakerChanges`: merge consecutive same-speaker
segments (concatenating text with a space and extending the end time). -/
def filterSpeakerChanges (segments : List Segment) : List Segment :=
  fscGo none segments

/-! ## Input well-formedness -/

/-- A well-formed, non-overlapping timed transcript: every entry has
`0 ≤ startMs ≤ endMs` and consecutive entries do not overlap. -/
def SrtWellFormed (srt : List Subtitle) : Prop :=
  (∀ e ∈ srt, 0 ≤ e.startMs ∧ e.startMs ≤ e.endMs) ∧
    List.Chain' (fun a b => a.endMs ≤ b.startMs) srt

instance (srt : List Subtitle) : Decidable (SrtWellFormed srt) := by
  unfold SrtWellFormed; infer_instance

/-- The pass-1 anchor invariant (for well-formed, non-overlapping timed
entries): anchors carry non-overlapping, ordered timestamps drawn from the
transcript, each within `[0, totalDuration]`, and the last anchor's end
comes from an entry strictly before the current cursor. -/
def Pass1Inv (srt : List Subtitle) (s : Pass1State) : Prop :=
  List.Chain' (fun a b => a.endMs ≤ b.startMs) s.anchors ∧
    (∀ a ∈ s.anchors, 0 ≤ a.startMs ∧ a.startMs ≤ a.endMs ∧
      a.endMs ≤ (srt.getLastD dummySub).endMs) ∧
    (∀ a, s.anchors.getLast? = some a → ∃ jj, jj < srt.length ∧
      jj < s.srtIndex ∧ a.endMs = (srt.getD jj dummySub).endMs)

/-! ## Concrete inputs used by witnesses and counterexamples -/

/-- A one-turn reference transcript (witness input). -/
def pdfTiny : List RefTurn := [⟨"A".toList, "x".toList⟩]

/-- A one-entry timed transcript (witness input). -/
def srtTiny : List Subtitle := [⟨1, [], [], 0, 1000, "y".toList⟩]

/-- An overlong (150 s) segment whose text is a single short sentence. -/
def segShortText : Segment := ⟨"A".toList, "Hi.".toList, [], [], 0, 150000⟩

/-- Counterexample input for the window search: 13 shared tokens followed
by 46 fillers (59 target tokens in all). -/
def pdfWordsCE : List Str :=
  (["aa", "ab", "ac", "ad", "ae", "af", "ag", "ah", "ai", "aj", "ak", "al",
    "am", "ba", "bb", "bc", "bd", "be", "bf", "bg", "bh", "bi", "bj", "bk",
    "bl", "bm", "bn", "bo", "bp", "bq", "br", "bs", "bt", "bu", "bv", "bw",
    "bx", "by", "bz", "ca", "cb", "cc", "cd", "ce", "cf", "cg", "ch", "ci",
    "cj", "ck", "cl", "cm", "cn", "co", "cp", "cq", "cr", "cs", "ct"]).map
    String.toList

/-- Counterexample timed transcript for the window search: the 13 shared
tokens, then 14 junk entries, then one entry repeating a shared token. -/
def srtCE : List Subtitle :=
  ⟨0, [], [], 0, 500, "aa ab ac ad ae af ag ah ai aj ak al am".toList⟩ ::
    ((["za", "zb", "zc", "zd", "ze", "zf", "zg", "zh", "zi", "zj", "zk",
       "zl", "zm", "zn"].enum.map
      (fun p => (⟨p.1 + 1, [], [], 1000 * (p.1 + 1), 1000 * p.1 + 1500,
        p.2.toList⟩ : Subtitle))) ++
      [⟨15, [], [], 15000, 15500, "aa".toList⟩])

/-- Counterexample reference transcript for the aligner: turns 0 and 2
anchor exactly, turn 1 matches nothing. -/
def pdfOv : List RefTurn :=
  [⟨"A".toList, "alpha bravo charlie delta echo".toList⟩,
   ⟨"B".toList, "zulu yankee xray".toList⟩,
   ⟨"A".toList, "foxtrot golf hotel india juliet".toList⟩]

/-- Counterexample timed transcript for the aligner: `startMs` is
non-decreasing but the first entry overlaps all later ones. -/
def srtOv : List Subtitle :=
  [⟨1, [], [], 0, 20000, "alpha bravo charlie delta echo".toList⟩,
   ⟨2, [], [], 1000, 2000, "kilo".toList⟩,
   ⟨3, [], [], 11000, 12000, "foxtrot golf hotel india juliet".toList⟩,
   ⟨4, [], [], 11500, 11600, "lima".toList⟩,
   ⟨5, [], [], 11600, 11700, "mike".toList⟩,
   ⟨6, [], [], 11700, 11800, "nova".toList⟩,
   ⟨7, [], [], 11800, 11900, "oscar".toList⟩,
   ⟨8, [], [], 11900, 11950, "papa".toList⟩]

/-- A well-formed two-entry timed transcript (witness input). -/
def srtWf : List Subtitle :=
  [⟨1, [], [], 0, 1000, "hello there".toList⟩,
   ⟨2, [], [], 1500, 2500, "good day".toList⟩]

/-- A two-turn reference transcript (witness input). -/
def pdfWf : List RefTurn :=
  [⟨"A".toList, "hello there".toList⟩, ⟨"B".toList, "good day".toList⟩]

/-! ## General helper lemmas -/

theorem foldl_preserve {α β : Type} (P : β → Prop) (f : β → α → β)
    (l : List α) (h : ∀ s x, x ∈ l → P s → P (f s x)) :
    ∀ s, P s → P (l.foldl f s) := by
  induction l with
  | nil => intro s hs; simpa using hs
  | cons x xs ih =>
    intro s hs
    simp only [List.foldl_cons]
    exact ih (fun s' y hy => h s' y (List.mem_cons_of_mem x hy))
      (f s x) (h s x (List.mem_cons_self x xs) hs)

/-! ## The text chunker never returns an empty list -/

theorem ite_ne_nil_of_default (c : List Str) (t : Str) :
    (if c = [] then [t] else c) ≠ [] := by
  split <;> simp_all

theorem getD_zero_mem {α : Type} (l : List α) (d : α) (h : l ≠ []) :
    l.getD 0 d ∈ l := by
  cases l with
  | nil => exact absurd rfl h
  | cons x xs => simp

theorem splitTextIntoChunks_ne_nil (text : Str) (maxLength : Nat) :
    splitTextIntoChunks text maxLength ≠ [] := by
  unfold splitTextIntoChunks
  exact ite_ne_nil_of_default _ _

theorem chunkSegments_length (segment : Segment) (chunks : List Str) :
    (chunkSegments segment chunks).length = chunks.length := by
  simp [chunkSegments]

theorem splitLongSegments_length (segments : List Segment) :
    segments.length ≤ (splitLongSegments segments).length := by
  induction segments with
  | nil => simp [splitLongSegments]
  | cons s rest ih =>
    have hstep : splitLongSegments (s :: rest) =
        (if s.endMs - s.startMs ≤ 120000 then [s]
          else chunkSegments s (splitTextIntoChunks s.text)) ++
          splitLongSegments rest := by
      simp [splitLongSegments]
    rw [hstep, List.length_append, List.length_cons]
    have h1 : 1 ≤ (if s.endMs - s.startMs ≤ 120000 then [s]
        else chunkSegments s (splitTextIntoChunks s.text)).length := by
      split
      · simp
      · rw [chunkSegments_length]
        exact List.length_pos.mpr (splitTextIntoChunks_ne_nil s.text 200)
    omega

/-- C10: the Segment Reshaper never drops a segment: the chunker always
returns at least one chunk, `splitLongSegments` emits at least one segment
per input segment, and `processSegments` of a non-empty sequence is
non-empty. -/
theorem C10_reshaper_never_drops :
    (∀ text maxLength, splitTextIntoChunks text maxLength ≠ []) ∧
      (∀ segments, segments.length ≤ (splitLongSegments segments).length) ∧
      (∀ segments : List Segment, segments ≠ [] → processSegments segments ≠ []) := by
  refine ⟨splitTextIntoChunks_ne_nil, splitLongSegments_length, ?_⟩
  intro segments hne
  have h1 : 0 < segments.length := List.length_pos.mpr hne
  have h2 := splitLongSegments_length segments
  have : 0 < (processSegments segments).length := by
    simpa [processSegments] using lt_of_lt_of_le h1 h2
  exact List.length_pos.mp this

/-- Witness for C10 at a concrete non-empty input. -/
theorem C10_reshaper_never_drops_witness : processSegments [segShortText] ≠ [] :=
  C10_reshaper_never_drops.2.2 [segShortText] (by decide)

/-! ## Idempotence of the speaker merge -/

theorem fscGo_cons_head (l : List Segment) :
    ∀ cur, ∃ s t, fscGo (some cur) l = s :: t ∧ s.speaker = cur.speaker := by
  induction l with
  | nil => intro cur; exact ⟨cur, [], rfl, rfl⟩
  | cons x xs ih =>
    intro cur
    by_cases h : cur.speaker = x.speaker
    · obtain ⟨s, t, hst, hsp⟩ := ih { cur with
        text := cur.text ++ ' ' :: x.text, endTime := x.endTime, endMs := x.endMs }
      refine ⟨s, t, ?_, by simpa using hsp⟩
      simp only [fscGo, if_pos h]
      exact hst
    · exact ⟨cur, fscGo (some x) xs, by simp only [fscGo, if_neg h], rfl⟩

theorem fscGo_chain (l : List Segment) :
    ∀ cur, List.Chain' (fun a b => a.speaker ≠ b.speaker) (fscGo (some cur) l) := by
  induction l with
  | nil => intro cur; simp [fscGo]
  | cons x xs ih =>
    intro cur
    by_cases h : cur.speaker = x.speaker
    · simp only [fscGo, if_pos h]
      exact ih { cur with
        text := cur.text ++ ' ' :: x.text, endTime := x.endTime, endMs := x.endMs }
    · obtain ⟨s, t, hst, hsp⟩ := fscGo_cons_head xs x
      have hchain := ih x
      rw [hst] at hchain
      simp only [fscGo, if_neg h]
      rw [hst]
      exact List.Chain'.cons (by rw [hsp]; exact h) hchain

theorem fscGo_of_chain (l : List Segment) :
    ∀ cur, List.Chain' (fun a b => a.speaker ≠ b.speaker) (cur :: l) →
      fscGo (some cur) l = cur :: l := by
  induction l with
  | nil => intro cur _; rfl
  | cons x xs ih =>
    intro cur hchain
    have hne : cur.speaker ≠ x.speaker := (List.chain'_cons.mp hchain).1
    have htail : List.Chain' (fun a b => a.speaker ≠ b.speaker) (x :: xs) :=
      (List.chain'_cons.mp hchain).2
    simp only [fscGo, if_neg hne]
    rw [ih x htail]

/-- C9: the speaker merge is idempotent: applying `filterSpeakerChanges` to
an already-merged sequence returns it unchanged. -/
theorem C9_speaker_merge_idempotent (segments : List Segment) :
    filterSpeakerChanges (filterSpeakerChanges segments) =
      filterSpeakerChanges segments := by
  cases segments with
  | nil => rfl
  | cons x xs =>
    have h1 : filterSpeakerChanges (x :: xs) = fscGo (some x) xs := rfl
    obtain ⟨s, t, hst, _⟩ := fscGo_cons_head xs x
    have hchain := fscGo_chain xs x
    rw [hst] at hchain
    rw [h1, hst]
    have h2 : filterSpeakerChanges (s :: t) = fscGo (some s) t := rfl
    rw [h2, fscGo_of_chain t s hchain]

/-! ## The duration cap of the Segment Reshaper -/

theorem jsRound_le (q : ℚ) : (jsRound q : ℚ) ≤ q + 1/2 :=
  Int.floor_le (q + 1/2)

theorem lt_jsRound (q : ℚ) : q - 1/2 < (jsRound q : ℚ) := by
  have := Int.sub_one_lt_floor (q + 1/2)
  unfold jsRound
  linarith

/-- Each chunk emitted for an overlong segment lasts at most the original
duration divided by the number of chunks, plus one millisecond of rounding. -/
theorem chunk_duration_bound (segment : Segment) (chunks : List Str)
    (e : Segment) (he : e ∈ chunkSegments segment chunks) :
    ((e.endMs - e.startMs : Int) : ℚ) ≤
      ((segment.endMs - segment.startMs : Int) : ℚ) / (chunks.length : ℚ) + 1 := by
  unfold chunkSegments at he
  rw [List.mem_map] at he
  obtain ⟨⟨idx, c⟩, hmem, he⟩ := he
  have hidx : idx < chunks.length := by
    have h1 := List.mk_mem_enum_iff_getElem?.mp hmem
    have h2 := List.getElem?_eq_some.mp h1
    exact h2.1
  set S : ℚ := (segment.startMs : ℚ) with hS
  set E : ℚ := (segment.endMs : ℚ) with hE
  set k : Nat := chunks.length with hk
  set t : ℚ := ((segment.endMs - segment.startMs : Int) : ℚ) / (k : ℚ) with ht
  have hkpos : (0 : ℚ) < (k : ℚ) := by
    have h0 : 0 < k := by omega
    exact_mod_cast h0
  have htk : t * (k : ℚ) = E - S := by
    rw [ht]
    field_simp [hS, hE]
  have hstart : (e.startMs : ℚ) = (jsRound (S + t * (idx : ℚ)) : ℚ) := by
    rw [← he]
  by_cases hlast : idx = k - 1
  · have hend : e.endMs = segment.endMs := by
      rw [← he]; simp [hlast]
    have hidxq : (idx : ℚ) = (k : ℚ) - 1 := by
      have hk1 : 1 ≤ k := by omega
      rw [hlast]
      push_cast [hk1]
      ring
    have hfloor := lt_jsRound (S + t * (idx : ℚ))
    have htidx : t * (idx : ℚ) = (E - S) - t := by
      rw [hidxq]; linear_combination htk
    have hmain : E - (jsRound (S + t * (idx : ℚ)) : ℚ) < t + 1 := by nlinarith
    push_cast
    rw [hend, hstart]
    linarith [hmain]
  · have hend : (e.endMs : ℚ) = (jsRound (S + t * ((idx : ℚ) + 1)) : ℚ) := by
      rw [← he]; simp [hlast]
    have h1 := jsRound_le (S + t * ((idx : ℚ) + 1))
    have h2 := lt_jsRound (S + t * (idx : ℚ))
    push_cast
    rw [hend, hstart]
    nlinarith

set_option maxRecDepth 40000 in
/-- Counterexample to C2: an overlong segment whose text yields a single
chunk is emitted unchanged, with duration above the 120000 ms cap. -/
theorem C2_duration_cap_counterexample :
    120000 < ((processSegments [segShortText]).getD 0 dummySeg).endMs -
      ((processSegments [segShortText]).getD 0 dummySeg).startMs := by
  with_unfolding_all decide

/-- C2 (amended): after the Segment Reshaper every emitted segment either
respects the 120000 ms cap, or is a chunk of an overlong input segment and
lasts at most the original duration divided by the chunk count of its text,
plus one millisecond of rounding; the cap itself is *not* guaranteed when
the text produces too few chunks. -/
theorem C2_duration_cap_amended (segments : List Segment) (e : Segment)
    (he : e ∈ processSegments segments) :
    e.endMs - e.startMs ≤ 120000 ∨
      ∃ s ∈ segments, 120000 < s.endMs - s.startMs ∧
        ((e.endMs - e.startMs : Int) : ℚ) ≤
          ((s.endMs - s.startMs : Int) : ℚ) /
            ((splitTextIntoChunks s.text 200).length : ℚ) + 1 := by
  unfold processSegments splitLongSegments at he
  rw [List.mem_flatMap] at he
  obtain ⟨s, hs, he⟩ := he
  by_cases hdur : s.endMs - s.startMs ≤ 120000
  · rw [if_pos hdur] at he
    left
    have : e = s := by simpa using he
    rw [this]
    exact hdur
  · rw [if_neg hdur] at he
    right
    exact ⟨s, hs, by omega, chunk_duration_bound s _ e he⟩

/-- Witness for the amended C2 at a concrete input: the single emitted chunk
of the 150 s single-sentence segment satisfies the per-chunk bound. -/
theorem C2_duration_cap_amended_witness :
    ((processSegments [segShortText]).getD 0 dummySeg).endMs -
        ((processSegments [segShortText]).getD 0 dummySeg).startMs ≤ 120000 ∨
      ∃ s ∈ [segShortText], 120000 < s.endMs - s.startMs ∧
        ((((processSegments [segShortText]).getD 0 dummySeg).endMs -
            ((processSegments [segShortText]).getD 0 dummySeg).startMs : Int) : ℚ) ≤
          ((s.endMs - s.startMs : Int) : ℚ) /
            ((splitTextIntoChunks s.text 200).length : ℚ) + 1 :=
  C2_duration_cap_amended [segShortText] _
    (getD_zero_mem _ _
      (by set_option maxRecDepth 40000 in with_unfolding_all decide))

/-! ## Splitting lemmas for the time codec -/

theorem splitOnChar_of_notin (sep : Char) (p : Str) (hp : sep ∉ p) :
    splitOnChar sep p = [p] := by
  induction p with
  | nil => rfl
  | cons c rest ih =>
    have hc : ¬(c = sep) := fun h => hp (by simp [h])
    have hrest : sep ∉ rest := fun h => hp (List.mem_cons_of_mem _ h)
    rw [splitOnChar, if_neg hc, ih hrest]

theorem splitOnChar_append (sep : Char) (p q : Str) (hp : sep ∉ p) :
    splitOnChar sep (p ++ sep :: q) = p :: splitOnChar sep q := by
  induction p with
  | nil => simp [splitOnChar]
  | cons c rest ih =>
    have hc : ¬(c = sep) := fun h => hp (by simp [h])
    have hrest : sep ∉ rest := fun h => hp (List.mem_cons_of_mem _ h)
    rw [List.cons_append, splitOnChar, if_neg hc,
      ih hrest]

theorem ne_comma_of_isDigit {c : Char} (h : c.isDigit = true) : ¬(',' = c) := by
  intro heq
  rw [← heq] at h
  exact absurd h (by decide)

theorem ne_colon_of_isDigit {c : Char} (h : c.isDigit = true) : ¬(':' = c) := by
  intro heq
  rw [← heq] at h
  exact absurd h (by decide)

/-! ## C6: the timestamp parser never signals an error -/

/-- Counterexample to C6: `"1:2:3,4"` does not match the fixed
`HH:MM:SS,mmm` pattern, yet `timeToMs` silently coerces it to the number
3723004 instead of failing. -/
theorem C6_format_error_counterexample :
    isTimestampPattern ("1:2:3,4".toList) = false ∧
      timeToMs ("1:2:3,4".toList) = some 3723004 := by
  constructor
  · decide
  · decide

/-- C6 (amended): `timeToMs` performs no pattern validation and has no
error path: every input is totally coerced (possibly to `NaN`), so a
malformed timestamp can be silently coerced into an ordinary numeric
result; on every string matching the fixed pattern it returns a number.
Pattern rejection happens only upstream, in `parseSRT`'s regular
expression, which skips blocks whose time line lacks the pattern. -/
theorem C6_timeToMs_total_coercion (l : Str)
    (hl : isTimestampPattern l = true) : (timeToMs l).isSome = true := by
  unfold isTimestampPattern at hl
  split at hl
  case h_2 => exact absurd hl (by simp)
  case h_1 a b c d e f g h i j k m =>
    simp only [Bool.and_eq_true, beq_iff_eq] at hl
    obtain ⟨⟨⟨⟨⟨⟨⟨⟨⟨⟨⟨ha, hb⟩, hc⟩, hd⟩, he⟩, hf⟩, hg⟩, hh⟩, hi⟩, hj⟩, hk⟩, hm⟩ := hl
    subst hc hf hi
    have hsplit1 : splitOnChar ',' [a, b, ':', d, e, ':', g, h, ',', j, k, m] =
        [[a, b, ':', d, e, ':', g, h], [j, k, m]] := by
      have h1 : ([a, b, ':', d, e, ':', g, h] : Str) ++ ',' :: [j, k, m] =
          [a, b, ':', d, e, ':', g, h, ',', j, k, m] := by simp
      rw [← h1, splitOnChar_append, splitOnChar_of_notin]
      · simp only [List.mem_cons, List.not_mem_nil, or_false]
        push_neg
        exact ⟨ne_comma_of_isDigit hj, ne_comma_of_isDigit hk, ne_comma_of_isDigit hm⟩
      · simp only [List.mem_cons, List.not_mem_nil, or_false]
        push_neg
        refine ⟨ne_comma_of_isDigit ha, ne_comma_of_isDigit hb, by decide,
          ne_comma_of_isDigit hd, ne_comma_of_isDigit he, by decide,
          ne_comma_of_isDigit hg, ne_comma_of_isDigit hh⟩
    have hsplit2 : splitOnChar ':' [a, b, ':', d, e, ':', g, h] =
        [[a, b], [d, e], [g, h]] := by
      have h1 : ([a, b] : Str) ++ ':' :: ([d, e] ++ ':' :: [g, h]) =
          [a, b, ':', d, e, ':', g, h] := by simp
      rw [← h1, splitOnChar_append, splitOnChar_append, splitOnChar_of_notin]
      · simp only [List.mem_cons, List.not_mem_nil, or_false]
        push_neg
        exact ⟨ne_colon_of_isDigit hg, ne_colon_of_isDigit hh⟩
      · simp only [List.mem_cons, List.not_mem_nil, or_false]
        push_neg
        exact ⟨ne_colon_of_isDigit hd, ne_colon_of_isDigit he⟩
      · simp only [List.mem_cons, List.not_mem_nil, or_false]
        push_neg
        exact ⟨ne_colon_of_isDigit ha, ne_colon_of_isDigit hb⟩
    simp [timeToMs, hsplit1, hsplit2, jsNum, ha, hb, hd, he, hg, hh, hj, hk, hm]

/-- Witness for the amended C6: a pattern-matching timestamp string is
coerced to a number. -/
theorem C6_timeToMs_total_coercion_witness :
    (timeToMs ("12:34:56,789".toList)).isSome = true :=
  C6_timeToMs_total_coercion _ (by decide)

/-! ## C3: the time-codec round trip -/

theorem digitChar_toNat {n : Nat} (h : n < 10) :
    (Char.ofNat (48 + n)).toNat = 48 + n := by
  interval_cases n <;> decide

theorem digitChar_isDigit {n : Nat} (h : n < 10) :
    (Char.ofNat (48 + n)).isDigit = true := by
  interval_cases n <;> decide

theorem natDigitsAux_all_digit :
    ∀ fuel n, (natDigitsAux fuel n).all Char.isDigit = true := by
  intro fuel
  induction fuel with
  | zero => intro n; rfl
  | succ fuel ih =>
    intro n
    by_cases h10 : n < 10
    · simp [natDigitsAux, h10, digitChar_isDigit h10]
    · rw [natDigitsAux, if_neg h10, List.all_append]
      simp [ih (n / 10), digitChar_isDigit (show n % 10 < 10 by omega)]

theorem natDigits_all_digit (n : Nat) : (natDigits n).all Char.isDigit = true :=
  natDigitsAux_all_digit (n + 1) n

theorem parseNat_natDigitsAux :
    ∀ fuel n, n < fuel → parseNat (natDigitsAux fuel n) = n := by
  intro fuel
  induction fuel with
  | zero => intro n h; omega
  | succ fuel ih =>
    intro n h
    by_cases h10 : n < 10
    · simp [natDigitsAux, h10, parseNat, digitChar_toNat h10]
    · have hdiv : n / 10 < fuel := by
        have h1 : n / 10 < n := Nat.div_lt_self (by omega) (by omega)
        omega
      rw [natDigitsAux, if_neg h10]
      unfold parseNat
      rw [List.foldl_append]
      have hrec := ih (n / 10) hdiv
      unfold parseNat at hrec
      rw [hrec]
      simp [digitChar_toNat (show n % 10 < 10 by omega)]
      omega

theorem parseNat_natDigits (n : Nat) : parseNat (natDigits n) = n :=
  parseNat_natDigitsAux (n + 1) n (by omega)

theorem parseNat_padStart (k : Nat) (l : Str) :
    parseNat (padStartChars k '0' l) = parseNat l := by
  unfold padStartChars parseNat
  rw [List.foldl_append]
  have hz : ∀ m, (List.replicate m '0').foldl
      (fun a c => a * 10 + (c.toNat - 48)) 0 = 0 := by
    intro m
    induction m with
    | zero => rfl
    | succ m ihm => simpa [List.replicate_succ] using ihm
  rw [hz]

theorem padStart_all_digit (k : Nat) (l : Str)
    (h : l.all Char.isDigit = true) :
    (padStartChars k '0' l).all Char.isDigit = true := by
  rw [padStartChars, List.all_append, h, Bool.and_true]
  rw [List.all_eq_true]
  intro c hc
  rw [List.eq_of_mem_replicate hc]
  decide

theorem jsNum_padStart_natDigits (k v : Nat) :
    jsNum (padStartChars k '0' (natDigits v)) = some (v : Int) := by
  rw [jsNum, if_pos (padStart_all_digit k _ (natDigits_all_digit v)),
    parseNat_padStart, parseNat_natDigits]

theorem notin_of_all_digit (sep : Char) (hsep : sep.isDigit = false)
    (l : Str) (h : l.all Char.isDigit = true) : sep ∉ l := by
  intro hmem
  rw [List.all_eq_true] at h
  exact absurd (h sep hmem) (by simp [hsep])

theorem fdiv_ofNat (m n : Nat) :
    Int.fdiv (m : Int) (n : Int) = ((m / n : Nat) : Int) := by
  cases m with
  | zero =>
    rw [show ((0 : Nat) : Int) = 0 from rfl, Int.zero_fdiv]
    simp
  | succ k => with_unfolding_all rfl

theorem tmod_ofNat (m n : Nat) :
    Int.tmod (m : Int) (n : Int) = ((m % n : Nat) : Int) := by
  with_unfolding_all rfl

theorem jsIntToString_ofNat (q : Nat) :
    jsIntToString (q : Int) = natDigits q := by
  unfold jsIntToString
  rw [if_neg (by omega)]
  simp

theorem msToTime_ofNat (ms : Nat) :
    msToTime (ms : Int) =
      padStartChars 2 '0' (natDigits (ms / 3600000)) ++ ':' ::
        (padStartChars 2 '0' (natDigits (ms % 3600000 / 60000)) ++ ':' ::
          (padStartChars 2 '0' (natDigits (ms % 60000 / 1000)) ++ ',' ::
            padStartChars 3 '0' (natDigits (ms % 1000)))) := by
  unfold msToTime
  dsimp only
  rw [show (3600000 : Int) = ((3600000 : Nat) : Int) from rfl,
    show (60000 : Int) = ((60000 : Nat) : Int) from rfl,
    show (1000 : Int) = ((1000 : Nat) : Int) from rfl]
  rw [tmod_ofNat, tmod_ofNat, tmod_ofNat, fdiv_ofNat, fdiv_ofNat, fdiv_ofNat]
  rw [jsIntToString_ofNat, jsIntToString_ofNat, jsIntToString_ofNat,
    jsIntToString_ofNat]

/-- C3: for every non-negative integer representable in the
`HH:MM:SS,mmm` format, formatting and re-parsing is the identity:
`timeToMs (msToTime ms) = ms`. -/
theorem C3_codec_round_trip (ms : Nat) (hms : ms < 360000000) :
    timeToMs (msToTime (ms : Int)) = some (ms : Int) := by
  rw [msToTime_ofNat]
  set p1 := padStartChars 2 '0' (natDigits (ms / 3600000)) with hp1
  set p2 := padStartChars 2 '0' (natDigits (ms % 3600000 / 60000)) with hp2
  set p3 := padStartChars 2 '0' (natDigits (ms % 60000 / 1000)) with hp3
  set p4 := padStartChars 3 '0' (natDigits (ms % 1000)) with hp4
  have d1 : p1.all Char.isDigit = true :=
    padStart_all_digit _ _ (natDigits_all_digit _)
  have d2 : p2.all Char.isDigit = true :=
    padStart_all_digit _ _ (natDigits_all_digit _)
  have d3 : p3.all Char.isDigit = true :=
    padStart_all_digit _ _ (natDigits_all_digit _)
  have d4 : p4.all Char.isDigit = true :=
    padStart_all_digit _ _ (natDigits_all_digit _)
  have hsplit1 : splitOnChar ',' (p1 ++ ':' :: (p2 ++ ':' :: (p3 ++ ',' :: p4))) =
      [p1 ++ ':' :: (p2 ++ ':' :: p3), p4] := by
    have hassoc : p1 ++ ':' :: (p2 ++ ':' :: (p3 ++ ',' :: p4)) =
        (p1 ++ ':' :: (p2 ++ ':' :: p3)) ++ ',' :: p4 := by simp
    rw [hassoc, splitOnChar_append, splitOnChar_of_notin]
    · exact notin_of_all_digit ',' (by decide) p4 d4
    · simp only [List.mem_append, List.mem_cons]
      push_neg
      refine ⟨notin_of_all_digit ',' (by decide) p1 d1, by decide,
        notin_of_all_digit ',' (by decide) p2 d2, by decide,
        notin_of_all_digit ',' (by decide) p3 d3⟩
  have hsplit2 : splitOnChar ':' (p1 ++ ':' :: (p2 ++ ':' :: p3)) =
      [p1, p2, p3] := by
    rw [splitOnChar_append, splitOnChar_append, splitOnChar_of_notin]
    · exact notin_of_all_digit ':' (by decide) p3 d3
    · exact notin_of_all_digit ':' (by decide) p2 d2
    · exact notin_of_all_digit ':' (by decide) p1 d1
  rw [timeToMs]
  simp only [hsplit1, hsplit2, List.getD, List.get?_cons_zero, Option.getD_some,
    List.get?_cons_succ, List.get?_nil, Option.some_bind]
  rw [hp1, hp2, hp3, hp4]
  simp only [jsNum_padStart_natDigits]
  simp only [Option.some.injEq]
  push_cast
  omega

/-- Witness for C3 at a concrete representable value. -/
theorem C3_codec_round_trip_witness :
    (45296789 : Nat) < 360000000 ∧
      timeToMs (msToTime ((45296789 : Nat) : Int)) = some ((45296789 : Nat) : Int) :=
  ⟨by omega, C3_codec_round_trip 45296789 (by omega)⟩

/-! ## C8: the similarity scorer -/

theorem mem_jsSet_foldl (l : List Str) :
    ∀ (acc : List Str) (y : Str),
      y ∈ l.foldl (fun acc x => if x ∈ acc then acc else acc ++ [x]) acc ↔
        y ∈ acc ∨ y ∈ l := by
  induction l with
  | nil => intro acc y; simp
  | cons x xs ih =>
    intro acc y
    rw [List.foldl_cons, ih]
    by_cases hx : x ∈ acc
    · rw [if_pos hx]
      constructor
      · rintro (h | h)
        · exact Or.inl h
        · exact Or.inr (List.mem_cons_of_mem x h)
      · rintro (h | h)
        · exact Or.inl h
        · rcases List.mem_cons.mp h with h | h
          · exact Or.inl (h ▸ hx)
          · exact Or.inr h
    · rw [if_neg hx]
      simp only [List.mem_append, List.mem_cons, List.mem_singleton]
      tauto

theorem mem_jsSet (l : List Str) (y : Str) : y ∈ jsSet l ↔ y ∈ l := by
  rw [jsSet, mem_jsSet_foldl]
  simp

theorem jsSet_nodup (l : List Str) : (jsSet l).Nodup := by
  have h := foldl_preserve (fun acc : List Str => acc.Nodup)
    (fun acc x => if x ∈ acc then acc else acc ++ [x]) l
    (fun acc x _ hacc => by
      show (if x ∈ acc then acc else acc ++ [x]).Nodup
      by_cases hx : x ∈ acc
      · rwa [if_pos hx]
      · rw [if_neg hx, ← List.concat_eq_append]
        exact hacc.concat hx)
  exact h [] List.nodup_nil

theorem jsSet_toFinset (l : List Str) : (jsSet l).toFinset = l.toFinset := by
  ext x
  simp [mem_jsSet]

theorem length_eq_card {l : List Str} {s : Finset Str} (hnd : l.Nodup)
    (hts : l.toFinset = s) : l.length = s.card := by
  rw [← hts, List.toFinset_card_of_nodup hnd]

theorem inter_length (w1 w2 : List Str) :
    ((jsSet w1).filter (fun x => decide (x ∈ jsSet w2))).length =
      (w1.toFinset ∩ w2.toFinset).card := by
  apply length_eq_card ((jsSet_nodup w1).filter _)
  ext x
  simp [List.mem_filter, mem_jsSet]

theorem union_length (w1 w2 : List Str) :
    (jsSet (jsSet w1 ++ jsSet w2)).length =
      (w1.toFinset ∪ w2.toFinset).card := by
  apply length_eq_card (jsSet_nodup _)
  ext x
  simp [mem_jsSet]

theorem seqMatches_le_left (a : List Str) :
    ∀ b, seqMatches a b ≤ a.length := by
  induction a with
  | nil => intro b; simp [seqMatches]
  | cons x xs ih =>
    intro b
    cases b with
    | nil => simp [seqMatches]
    | cons y ys =>
      rw [seqMatches]
      split
      · have := ih ys; simp; omega
      · have := ih (y :: ys); simp; omega

theorem ratio_nonneg (a b : ℚ) (ha : 0 ≤ a) (hb : 0 ≤ b) : 0 ≤ a / b :=
  div_nonneg ha hb

theorem ratio_le_one (a b : ℚ) (ha : 0 ≤ a) (hab : a ≤ b) : a / b ≤ 1 := by
  by_cases hb : b = 0
  · rw [hb, div_zero]; norm_num
  · have hbpos : 0 < b := lt_of_le_of_ne (le_trans ha hab) (Ne.symm hb)
    rw [div_le_one hbpos]
    exact hab

/-- C8: `calculateSimilarity` returns a value in `[0, 1]` equal to
`0.5 · jaccard + 0.2 · lengthRatio + 0.3 · sequential`, where `jaccard` is
the Jaccard overlap of the unique-token sets, the length term is
`min(|A|,|B|)/max(|A|,|B|)`, and `sequential` is the two-pointer match
count over `max(|A|,|B|)`; on two empty sequences the score is 0 (in this
exact-rational model `0/0 = 0`; in JavaScript's floating point that
unreachable corner evaluates to `NaN`; `cleanText`-produced token lists are
never empty). -/
theorem C8_similarity_formula (words1 words2 : List Str) :
    calculateSimilarity words1 words2 =
      ((words1.toFinset ∩ words2.toFinset).card : ℚ) /
          ((words1.toFinset ∪ words2.toFinset).card : ℚ) * (1/2) +
        ((min words1.length words2.length : Nat) : ℚ) /
          ((max words1.length words2.length : Nat) : ℚ) * (1/5) +
        ((seqMatches words1 words2 : Nat) : ℚ) /
          ((max words1.length words2.length : Nat) : ℚ) * (3/10) ∧
      (0 ≤ calculateSimilarity words1 words2 ∧
        calculateSimilarity words1 words2 ≤ 1) ∧
      calculateSimilarity ([] : List Str) ([] : List Str) = 0 := by
  have hform : calculateSimilarity words1 words2 =
      ((words1.toFinset ∩ words2.toFinset).card : ℚ) /
          ((words1.toFinset ∪ words2.toFinset).card : ℚ) * (1/2) +
        ((min words1.length words2.length : Nat) : ℚ) /
          ((max words1.length words2.length : Nat) : ℚ) * (1/5) +
        ((seqMatches words1 words2 : Nat) : ℚ) /
          ((max words1.length words2.length : Nat) : ℚ) * (3/10) := by
    rw [calculateSimilarity]
    rw [inter_length, union_length]
    push_cast
    ring
  refine ⟨hform, ⟨?_, ?_⟩, by with_unfolding_all decide⟩
  · rw [hform]
    have h1 : (0 : ℚ) ≤ ((words1.toFinset ∩ words2.toFinset).card : ℚ) /
        ((words1.toFinset ∪ words2.toFinset).card : ℚ) :=
      ratio_nonneg _ _ (by positivity) (by positivity)
    have h2 : (0 : ℚ) ≤ ((min words1.length words2.length : Nat) : ℚ) /
        ((max words1.length words2.length : Nat) : ℚ) :=
      ratio_nonneg _ _ (by positivity) (by positivity)
    have h3 : (0 : ℚ) ≤ ((seqMatches words1 words2 : Nat) : ℚ) /
        ((max words1.length words2.length : Nat) : ℚ) :=
      ratio_nonneg _ _ (by positivity) (by positivity)
    positivity
  · rw [hform]
    have h1 : ((words1.toFinset ∩ words2.toFinset).card : ℚ) /
        ((words1.toFinset ∪ words2.toFinset).card : ℚ) ≤ 1 := by
      apply ratio_le_one _ _ (by positivity)
      exact_mod_cast Finset.card_le_card Finset.inter_subset_union
    have h2 : ((min words1.length words2.length : Nat) : ℚ) /
        ((max words1.length words2.length : Nat) : ℚ) ≤ 1 := by
      apply ratio_le_one _ _ (by positivity)
      exact_mod_cast min_le_max
    have h3 : ((seqMatches words1 words2 : Nat) : ℚ) /
        ((max words1.length words2.length : Nat) : ℚ) ≤ 1 := by
      apply ratio_le_one _ _ (by positivity)
      have := seqMatches_le_left words1 words2
      have hmax : words1.length ≤ max words1.length words2.length := le_max_left _ _
      exact_mod_cast le_trans this hmax
    have g1 : (0 : ℚ) ≤ ((words1.toFinset ∩ words2.toFinset).card : ℚ) /
        ((words1.toFinset ∪ words2.toFinset).card : ℚ) := by positivity
    have g2 : (0 : ℚ) ≤ ((min words1.length words2.length : Nat) : ℚ) /
        ((max words1.length words2.length : Nat) : ℚ) := by positivity
    have g3 : (0 : ℚ) ≤ ((seqMatches words1 words2 : Nat) : ℚ) /
        ((max words1.length words2.length : Nat) : ℚ) := by positivity
    linarith

/-! ## C5: the window search -/

theorem mem_candidatePairs {srt : List Subtitle} {st i j : Nat}
    (h : (i, j) ∈ candidatePairs srt st) :
    st ≤ i ∧ i ≤ j ∧ j < srt.length := by
  unfold candidatePairs outerIdxs at h
  rw [List.mem_flatMap] at h
  obtain ⟨i', hi', hmap⟩ := h
  rw [List.mem_map] at hmap
  obtain ⟨j', hj', heq⟩ := hmap
  rw [Prod.mk.injEq] at heq
  obtain ⟨rfl, rfl⟩ := heq
  rw [List.mem_range'_1] at hi' hj'
  omega

theorem srtRange_headD {srt : List Subtitle} {i j : Nat} (hij : i ≤ j)
    (hi : i < srt.length) :
    (srtRange srt i j).headD dummySub = srt.getD i dummySub := by
  unfold srtRange
  rw [List.drop_eq_getElem_cons hi]
  have h1 : j + 1 - i = (j - i) + 1 := by omega
  rw [h1, List.take_succ_cons]
  rw [List.headD_cons, List.getD_eq_getElem?_getD, List.getElem?_eq_getElem hi,
    Option.getD_some]

theorem srtRange_getLastD {srt : List Subtitle} {i j : Nat} (hij : i ≤ j)
    (hj : j < srt.length) :
    (srtRange srt i j).getLastD dummySub = srt.getD j dummySub := by
  unfold srtRange
  have hi : i < srt.length := lt_of_le_of_lt hij hj
  have hlen : ((srt.drop i).take (j + 1 - i)).length = j + 1 - i := by
    rw [List.length_take, List.length_drop]
    omega
  rw [List.getLastD_eq_getLast?, List.getLast?_eq_getElem?, hlen]
  have h1 : j + 1 - i - 1 = j - i := by omega
  have h2 : i + (j - i) = j := by omega
  rw [h1, List.getElem?_take, List.getElem?_drop, h2,
    List.getElem?_eq_getElem hj, if_pos (show j - i < j + 1 - i by omega),
    Option.getD_some, List.getD_eq_getElem?_getD,
    List.getElem?_eq_getElem hj, Option.getD_some]

theorem mkBestMatch_spec {pw : List Str} {srt : List Subtitle} {st i j : Nat}
    (hij : (i, j) ∈ candidatePairs srt st) :
    MatchSpec pw srt st (mkBestMatch srt i j (candidateRaw pw srt i j)) := by
  obtain ⟨h1, h2, h3⟩ := mem_candidatePairs hij
  refine ⟨hij, rfl, ?_, ?_⟩
  · show (((srtRange srt i j).headD dummySub).startMs : Int) = _
    rw [srtRange_headD h2 (lt_of_le_of_lt h2 h3)]
    rfl
  · show (((srtRange srt i j).getLastD dummySub).endMs : Int) = _
    rw [srtRange_getLastD h2 h3]
    rfl

theorem innerStep_bestMatch (pw : List Str) (srt : List Subtitle)
    (i : Nat) (s : BMState) (j : Nat) :
    (innerStep pw srt i s j).bestMatch = s.bestMatch ∨
      (innerStep pw srt i s j).bestMatch =
        some (mkBestMatch srt i j (candidateRaw pw srt i j)) := by
  unfold innerStep
  by_cases hstop : s.stop
  · rw [if_pos hstop]; exact Or.inl rfl
  · rw [if_neg hstop]
    dsimp only
    set pen : ℚ :=
      if 15 < j - i + 1 then 1 - (((j - i + 1 : Nat) : ℚ) - 15) * (1/50) else 1
      with hpen
    by_cases hup : s.bestScore < candidateRaw pw srt i j * pen
    · rw [if_pos hup]
      by_cases hbr : 3/4 < candidateRaw pw srt i j * pen ∧ j - i + 1 ≤ 20
      · rw [if_pos hbr]; exact Or.inr rfl
      · rw [if_neg hbr]; exact Or.inr rfl
    · rw [if_neg hup]
      by_cases hbr : 3/4 < candidateRaw pw srt i j * pen ∧ j - i + 1 ≤ 20
      · rw [if_pos hbr]; exact Or.inl rfl
      · rw [if_neg hbr]; exact Or.inl rfl

theorem innerStep_pres {pw : List Str} {srt : List Subtitle} {st i : Nat}
    (hi : i ∈ outerIdxs srt st) {s : BMState} (hs : bmP pw srt st s)
    (j : Nat) (hj : j ∈ List.range' i (min (i + 30) srt.length - i)) :
    bmP pw srt st (innerStep pw srt i s j) := by
  intro m hm
  rcases innerStep_bestMatch pw srt i s j with h | h
  · exact hs m (h ▸ hm)
  · rw [h, Option.some.injEq] at hm
    subst hm
    apply mkBestMatch_spec
    unfold candidatePairs
    rw [List.mem_flatMap]
    exact ⟨i, hi, List.mem_map.mpr ⟨j, hj, rfl⟩⟩

theorem outerStep_pres {pw : List Str} {srt : List Subtitle} {st : Nat}
    {s : BMState} (hs : bmP pw srt st s) (i : Nat)
    (hi : i ∈ outerIdxs srt st) :
    bmP pw srt st (outerStep pw srt s i) := by
  unfold outerStep
  split
  · exact hs
  · dsimp only
    have hfold : bmP pw srt st ((List.range' i (min (i + 30) srt.length - i)).foldl
        (innerStep pw srt i) s) :=
      foldl_preserve (bmP pw srt st) (innerStep pw srt i)
        (List.range' i (min (i + 30) srt.length - i))
        (fun s' j hj hs' => innerStep_pres hi hs' j hj) s hs
    split
    · intro m hm
      exact hfold m hm
    · exact hfold

theorem findBestMatch_some_spec {pw : List Str} {srt : List Subtitle}
    {st : Nat} {m : BestMatch} (h : findBestMatch pw srt st = some m) :
    MatchSpec pw srt st m ∧ 1/4 ≤ m.confidence := by
  unfold findBestMatch at h
  dsimp only at h
  have hP : bmP pw srt st ((outerIdxs srt st).foldl (outerStep pw srt)
      ⟨0, none, false⟩) :=
    foldl_preserve (bmP pw srt st) (outerStep pw srt) (outerIdxs srt st)
      (fun s i hi hs => outerStep_pres hs i hi) ⟨0, none, false⟩
      (fun m hm => nomatch hm)
  split at h
  case h_1 m' heq =>
    split at h
    · rw [Option.some.injEq] at h
      subst h
      exact ⟨hP m' heq, by assumption⟩
    · exact absurd h (by simp)
  case h_2 => exact absurd h (by simp)

theorem findBestMatch_none_of_low {pw : List Str} {srt : List Subtitle}
    {st : Nat}
    (hlow : ∀ p ∈ candidatePairs srt st, candidateRaw pw srt p.1 p.2 < 1/4) :
    findBestMatch pw srt st = none := by
  cases h : findBestMatch pw srt st with
  | none => rfl
  | some m =>
    obtain ⟨⟨hmem, hconf, _, _⟩, hge⟩ := findBestMatch_some_spec h
    have hlt := hlow (m.startIndex, m.endIndex) hmem
    rw [hconf] at hge
    exact absurd hge (not_le.mpr hlt)

set_option maxRecDepth 200000 in
/-- Counterexample to C5: the search returns *no match* although the
candidate span `[0, 15]` has raw (pre-penalty) similarity above the 0.25
minimum confidence: the size penalty demoted it below a compact candidate
whose raw score is under the threshold, and the final threshold test is
applied only to that penalized-ranking winner. -/
theorem C5_window_search_counterexample :
    findBestMatch pdfWordsCE srtCE 0 = none ∧
      (0, 15) ∈ candidatePairs srtCE 0 ∧
      1/4 ≤ candidateRaw pdfWordsCE srtCE 0 15 := by
  refine ⟨?_, ?_, ?_⟩
  · with_unfolding_all decide
  · with_unfolding_all decide
  · with_unfolding_all decide

/-- C5 (amended): when a match is returned, its `confidence` field is the
raw pre-penalty similarity of the chosen span and it clears `minConfidence`
(0.25); if *every* candidate's raw similarity is below the threshold, no
match is returned.  The converse fails: no-match can also be returned when
penalized ranking selects a candidate whose raw confidence is below the
threshold even though another candidate's raw score clears it (the size
penalty therefore does not only affect ranking among returned results). -/
theorem C5_window_search_amended (pdfWords : List Str) (srt : List Subtitle)
    (startIndex : Nat) :
    ((∀ p ∈ candidatePairs srt startIndex,
        candidateRaw pdfWords srt p.1 p.2 < 1/4) →
      findBestMatch pdfWords srt startIndex = none) ∧
    (∀ m, findBestMatch pdfWords srt startIndex = some m →
      m.confidence = candidateRaw pdfWords srt m.startIndex m.endIndex ∧
      1/4 ≤ m.confidence ∧
      (m.startIndex, m.endIndex) ∈ candidatePairs srt startIndex) := by
  constructor
  · exact findBestMatch_none_of_low
  · intro m hm
    obtain ⟨⟨hmem, hconf, _, _⟩, hge⟩ := findBestMatch_some_spec hm
    exact ⟨hconf, hge, hmem⟩

/-- Witness for the amended C5: on a tiny input whose only candidate scores
0.2 < 0.25, the search returns no match. -/
theorem C5_window_search_amended_witness :
    findBestMatch [['x']] srtTiny 0 = none :=
  (C5_window_search_amended [['x']] srtTiny 0).1
    (by with_unfolding_all decide)

/-! ## C7: pass-1 cursor monotonicity -/

theorem pass1Step_srtIndex_mono (pdfSegments : List RefTurn)
    (srt : List Subtitle) (s : Pass1State) (i : Nat) :
    s.srtIndex ≤ (pass1Step pdfSegments srt s i).srtIndex := by
  unfold pass1Step
  by_cases hdone : s.done
  · rw [if_pos hdone]
  · rw [if_neg hdone]
    by_cases hbr : (s.srtIndex : Int) ≥ (srt.length : Int) - 5
    · rw [if_pos hbr]
    · rw [if_neg hbr]
      dsimp only
      cases hfm : findBestMatch (wordsOf (pdfSegments.getD i dummyTurn).text)
          srt s.srtIndex with
      | none =>
        dsimp only
        omega
      | some m =>
        dsimp only
        by_cases hconf : (9/20 : ℚ) ≤ m.confidence
        · rw [if_pos hconf]
          obtain ⟨⟨hmem, _, _, _⟩, _⟩ := findBestMatch_some_spec hfm
          obtain ⟨hst, hij, _⟩ := mem_candidatePairs hmem
          dsimp only
          omega
        · rw [if_neg hconf]
          dsimp only
          omega

theorem head_scanl {α β : Type} (f : β → α → β) (s : β) (l : List α) :
    ∃ t, List.scanl f s l = s :: t := by
  cases l with
  | nil => exact ⟨[], rfl⟩
  | cons x xs =>
    exact ⟨List.scanl f (f s x) xs, by rw [List.scanl_cons, List.singleton_append]⟩

theorem chain'_le_scanl {α β : Type} (f : β → α → β) (g : β → Nat)
    (hf : ∀ s x, g s ≤ g (f s x)) :
    ∀ (l : List α) (s : β), List.Chain' (· ≤ ·) ((List.scanl f s l).map g) := by
  intro l
  induction l with
  | nil => intro s; simp
  | cons x xs ih =>
    intro s
    rw [List.scanl_cons, List.singleton_append, List.map_cons, List.chain'_cons']
    constructor
    · intro y hy
      obtain ⟨t, ht⟩ := head_scanl f (f s x) xs
      rw [ht, List.map_cons, List.head?_cons, Option.mem_def,
        Option.some.injEq] at hy
      rw [← hy]
      exact hf s x
    · exact ih (f s x)

/-- C7: in pass 1 the SRT cursor used for each subsequent turn's search is
at least the cursor used for the previous turn: the cursor value sequence
along the pass-1 state trace is monotone (cursor jumps past the matched
span on success, advances by one clamped to the end on failure, and is
frozen once the end-margin break fires). -/
theorem C7_pass1_cursor_monotone (pdfSegments : List RefTurn)
    (srt : List Subtitle) :
    List.Chain' (· ≤ ·)
      ((List.scanl (pass1Step pdfSegments srt) pass1Init
          (turnIdxs pdfSegments (findTranscriptStart pdfSegments srt))).map
        Pass1State.srtIndex) :=
  chain'_le_scanl (pass1Step pdfSegments srt) Pass1State.srtIndex
    (pass1Step_srtIndex_mono pdfSegments srt)
    (turnIdxs pdfSegments (findTranscriptStart pdfSegments srt)) pass1Init

/-! ## C1: coverage and speaker order of `align` -/

theorem foldl_option_range (f : Option Nat → Nat → Option Nat) (limit : Nat)
    (hf : ∀ acc i v, f acc i = some v → acc = some v ∨ v = i) :
    ∀ v, (List.range limit).foldl f none = some v → v < limit := by
  have hP := foldl_preserve
    (fun acc : Option Nat => ∀ v, acc = some v → v < limit) f
    (List.range limit)
    (fun acc i hi hacc v hv => by
      rcases hf acc i v hv with h | h
      · exact hacc v h
      · rw [h]; exact List.mem_range.mp hi)
    none (fun v hv => nomatch hv)
  exact hP

theorem findTranscriptStart_lt (pdfSegments : List RefTurn)
    (srt : List Subtitle) (h : pdfSegments ≠ []) :
    findTranscriptStart pdfSegments srt < pdfSegments.length := by
  have hlen : 0 < pdfSegments.length := List.length_pos.mpr h
  unfold findTranscriptStart
  dsimp only
  have hinv := foldl_option_range (ftsStep pdfSegments srt)
    (min 20 pdfSegments.length)
    (fun acc i v hv => by
      cases acc with
      | some w => exact Or.inl hv
      | none =>
        unfold ftsStep at hv
        dsimp only at hv
        split at hv
        · exact absurd hv (by simp)
        · split at hv
          · split at hv
            · injection hv with hv'
              exact Or.inr hv'.symm
            · exact absurd hv (by simp)
          · exact absurd hv (by simp))
  cases hr : (List.range (min 20 pdfSegments.length)).foldl
      (ftsStep pdfSegments srt) none with
  | none => simpa using hlen
  | some v =>
    have := hinv v hr
    simp only [Option.getD_some]
    omega

theorem pass2Segment_speaker (pdfSegments : List RefTurn)
    (anchors : List Anchor) (totalDurationMs : Int) (totalSegments : Nat)
    (startIndex i : Nat) :
    (pass2Segment pdfSegments anchors totalDurationMs totalSegments
        startIndex i).speaker = (pdfSegments.getD i dummyTurn).speaker := by
  unfold pass2Segment
  split <;> rfl

theorem map_getD_range' {α β : Type} (l : List α) (d : α) (g : α → β) :
    ∀ n s, s + n = l.length →
      (List.range' s n).map (fun i => g (l.getD i d)) = (l.drop s).map g := by
  intro n
  induction n with
  | zero =>
    intro s hs
    have hd : l.drop s = [] := List.drop_eq_nil_of_le (by omega)
    simp [hd]
  | succ n ih =>
    intro s hs
    have hslt : s < l.length := by omega
    rw [List.range'_succ, List.map_cons, List.drop_eq_getElem_cons hslt,
      List.map_cons]
    congr 1
    · rw [List.getD_eq_getElem?_getD, List.getElem?_eq_getElem hslt,
        Option.getD_some]
    · exact ih (s + 1) (by omega)

/-- C1: on non-empty inputs, `align` emits exactly
`|reference turns| − startIndex` segments — one per reference turn from the
detected transcript start onward, in order, with the same speaker
sequence — and the result is never empty. -/
theorem C1_align_coverage (pdfSegments : List RefTurn) (srt : List Subtitle)
    (hpdf : pdfSegments ≠ []) (hsrt : srt ≠ []) :
    (align pdfSegments srt).length =
        pdfSegments.length - findTranscriptStart pdfSegments srt ∧
      (align pdfSegments srt).map Segment.speaker =
        (pdfSegments.drop (findTranscriptStart pdfSegments srt)).map
          RefTurn.speaker ∧
      align pdfSegments srt ≠ [] := by
  have hst := findTranscriptStart_lt pdfSegments srt hpdf
  have hlen : (align pdfSegments srt).length =
      pdfSegments.length - findTranscriptStart pdfSegments srt := by
    unfold align
    dsimp only
    rw [List.length_map]
    unfold turnIdxs
    rw [List.length_range']
  refine ⟨hlen, ?_, ?_⟩
  · unfold align
    dsimp only
    rw [List.map_map]
    unfold turnIdxs
    rw [← map_getD_range' pdfSegments dummyTurn RefTurn.speaker
      (pdfSegments.length - findTranscriptStart pdfSegments srt)
      (findTranscriptStart pdfSegments srt) (by omega)]
    apply List.map_congr_left
    intro i _
    exact pass2Segment_speaker pdfSegments _ _ _ _ i
  · intro hnil
    rw [hnil] at hlen
    simp at hlen
    omega

/-- Witness for C1 at a concrete one-turn, one-entry input. -/
theorem C1_align_coverage_witness :
    (align pdfTiny srtTiny).length =
        pdfTiny.length - findTranscriptStart pdfTiny srtTiny ∧
      (align pdfTiny srtTiny).map Segment.speaker =
        (pdfTiny.drop (findTranscriptStart pdfTiny srtTiny)).map
          RefTurn.speaker ∧
      align pdfTiny srtTiny ≠ [] :=
  C1_align_coverage pdfTiny srtTiny (by decide) (by decide)

/-! ## C4: segment bounds -/

theorem srt_wf_entry {srt : List Subtitle} (hwf : SrtWellFormed srt)
    {i : Nat} (hi : i < srt.length) :
    0 ≤ (srt.getD i dummySub).startMs ∧
      (srt.getD i dummySub).startMs ≤ (srt.getD i dummySub).endMs := by
  have hmem : srt.getD i dummySub ∈ srt := by
    rw [List.getD_eq_getElem?_getD, List.getElem?_eq_getElem hi,
      Option.getD_some]
    exact List.getElem_mem hi
  exact hwf.1 _ hmem

theorem srt_wf_adj {srt : List Subtitle} (hwf : SrtWellFormed srt)
    {k : Nat} (hk : k + 1 < srt.length) :
    (srt.getD k dummySub).endMs ≤ (srt.getD (k + 1) dummySub).startMs := by
  have h := List.chain'_iff_get.mp hwf.2 k (by omega)
  rw [List.get_eq_getElem, List.get_eq_getElem] at h
  rwa [List.getD_eq_getElem?_getD, List.getElem?_eq_getElem (by omega),
    Option.getD_some, List.getD_eq_getElem?_getD,
    List.getElem?_eq_getElem hk, Option.getD_some]

theorem srt_wf_cross {srt : List Subtitle} (hwf : SrtWellFormed srt) :
    ∀ {j i : Nat}, i < j → j < srt.length →
      (srt.getD i dummySub).endMs ≤ (srt.getD j dummySub).startMs := by
  intro j
  induction j with
  | zero => intro i hij _; omega
  | succ k ih =>
    intro i hij hk
    by_cases hik : i = k
    · subst hik
      exact srt_wf_adj hwf hk
    · have h1 := ih (show i < k by omega) (by omega)
      have h2 := (srt_wf_entry hwf (show k < srt.length by omega)).2
      have h3 := srt_wf_adj hwf hk
      omega

theorem srt_wf_en_mono {srt : List Subtitle} (hwf : SrtWellFormed srt)
    {i j : Nat} (hij : i ≤ j) (hj : j < srt.length) :
    (srt.getD i dummySub).endMs ≤ (srt.getD j dummySub).endMs := by
  rcases Nat.lt_or_ge i j with h | h
  · have h1 := srt_wf_cross hwf h hj
    have h2 := (srt_wf_entry hwf hj).2
    omega
  · have : i = j := by omega
    rw [this]

theorem getLastD_eq_getD_last {srt : List Subtitle} (h : srt ≠ []) :
    srt.getLastD dummySub = srt.getD (srt.length - 1) dummySub := by
  have hl : 0 < srt.length := List.length_pos.mpr h
  rw [List.getLastD_eq_getLast?, List.getLast?_eq_getElem?,
    List.getD_eq_getElem?_getD]

theorem jsRound_int_add_nonneg (s : Int) (d : ℚ) (hd : 0 ≤ d) :
    s ≤ jsRound ((s : ℚ) + d) := by
  unfold jsRound
  rw [add_assoc, Int.floor_int_add]
  have h : (0 : Int) ≤ ⌊d + 1/2⌋ := by
    rw [Int.le_floor]
    push_cast
    linarith
  omega

theorem findPrevNext_spec (i : Nat) (Q : Anchor → Prop) :
    ∀ (l : List Anchor) (prev : Option Anchor),
      (∀ a ∈ l, a.pdfIndex ≠ i) → (∀ a ∈ l, Q a) →
      (match prev with
       | some p => Q p ∧ p.pdfIndex < i ∧
           List.Chain' (fun a b => a.endMs ≤ b.startMs) (p :: l)
       | none => List.Chain' (fun a b => a.endMs ≤ b.startMs) l) →
      (∀ p n, findPrevNext i l prev = (some p, some n) →
          Q p ∧ Q n ∧ p.endMs ≤ n.startMs ∧ p.pdfIndex < i ∧ i < n.pdfIndex) ∧
        (∀ p, findPrevNext i l prev = (some p, none) → Q p ∧ p.pdfIndex < i) ∧
        (∀ n, findPrevNext i l prev = (none, some n) → Q n ∧ i < n.pdfIndex) := by
  intro l
  induction l with
  | nil =>
    intro prev _ _ hprev
    cases prev with
    | none =>
      refine ⟨fun p n h => ?_, fun p h => ?_, fun n h => ?_⟩ <;>
        simp [findPrevNext] at h
    | some p0 =>
      refine ⟨fun p n h => ?_, fun p h => ?_, fun n h => ?_⟩
      · simp [findPrevNext] at h
      · simp only [findPrevNext, Prod.mk.injEq, Option.some.injEq] at h
        rw [← h.1]
        exact ⟨hprev.1, hprev.2.1⟩
      · simp [findPrevNext] at h
  | cons a rest ih =>
    intro prev hni hQ hprev
    have hane : a.pdfIndex ≠ i := hni a (List.mem_cons_self a rest)
    have hQa : Q a := hQ a (List.mem_cons_self a rest)
    have hni' : ∀ x ∈ rest, x.pdfIndex ≠ i :=
      fun x hx => hni x (List.mem_cons_of_mem a hx)
    have hQ' : ∀ x ∈ rest, Q x := fun x hx => hQ x (List.mem_cons_of_mem a hx)
    by_cases hlt : a.pdfIndex < i
    · have hrec := ih (some a) hni' hQ'
        (by
          refine ⟨hQa, hlt, ?_⟩
          cases prev with
          | none => exact hprev
          | some p0 => exact (List.chain'_cons.mp hprev.2.2).2)
      refine ⟨fun p n h => ?_, fun p h => ?_, fun n h => ?_⟩ <;>
        rw [findPrevNext, if_pos hlt] at h
      · exact hrec.1 p n h
      · exact hrec.2.1 p h
      · exact hrec.2.2 n h
    · by_cases hgt : i < a.pdfIndex
      · refine ⟨fun p n h => ?_, fun p h => ?_, fun n h => ?_⟩ <;>
          rw [findPrevNext, if_neg hlt, if_pos hgt] at h <;>
          rw [Prod.mk.injEq] at h
        · cases prev with
          | none => exact absurd h.1 (by simp)
          | some p0 =>
            rw [Option.some.injEq] at h
            obtain ⟨h1, h2⟩ := h
            rw [← h1, ← (Option.some.injEq _ _).mp h2]
            have hpa : p0.endMs ≤ a.startMs :=
              (List.chain'_cons.mp hprev.2.2).1
            exact ⟨hprev.1, hQa, hpa, hprev.2.1, hgt⟩
        · exact absurd h.2 (by simp)
        · cases prev with
          | none =>
            rw [Option.some.injEq] at h
            rw [← h.2]
            exact ⟨hQa, hgt⟩
          | some p0 => exact absurd h.1 (by simp)
      · omega

theorem pass1Step_inv (pdfSegments : List RefTurn) (srt : List Subtitle)
    (hwf : SrtWellFormed srt) (s : Pass1State) (i : Nat)
    (hs : Pass1Inv srt s) : Pass1Inv srt (pass1Step pdfSegments srt s i) := by
  obtain ⟨hch, hQ, hlast⟩ := hs
  unfold pass1Step
  by_cases hdone : s.done
  · rw [if_pos hdone]; exact ⟨hch, hQ, hlast⟩
  · rw [if_neg hdone]
    by_cases hbr : (s.srtIndex : Int) ≥ (srt.length : Int) - 5
    · rw [if_pos hbr]
      exact ⟨hch, hQ, hlast⟩
    · rw [if_neg hbr]
      dsimp only
      cases hfm : findBestMatch (wordsOf (pdfSegments.getD i dummyTurn).text)
          srt s.srtIndex with
      | none =>
        refine ⟨hch, hQ, fun a ha => ?_⟩
        obtain ⟨jj, h1, h2, h3⟩ := hlast a ha
        refine ⟨jj, h1, ?_, h3⟩
        show jj < min (s.srtIndex + 1) (srt.length - 1)
        omega
      | some m =>
        dsimp only
        by_cases hconf : (9/20 : ℚ) ≤ m.confidence
        · rw [if_pos hconf]
          obtain ⟨⟨hmem, hcf, hsms, hems⟩, _⟩ := findBestMatch_some_spec hfm
          obtain ⟨hst, hij, hjlen⟩ := mem_candidatePairs hmem
          have hilen : m.startIndex < srt.length := by omega
          have hsrtne : srt ≠ [] := by
            intro hnil
            rw [hnil] at hjlen
            simp at hjlen
          have he1 := srt_wf_entry hwf hilen
          have hmono := srt_wf_en_mono hwf hij hjlen
          have htot : (srt.getD m.endIndex dummySub).endMs ≤
              (srt.getLastD dummySub).endMs := by
            rw [getLastD_eq_getD_last hsrtne]
            exact srt_wf_en_mono hwf (by omega) (by omega)
          refine ⟨?_, ?_, ?_⟩
          · apply List.Chain'.append hch (List.chain'_singleton _)
            intro x hx y hy
            rw [List.head?_cons, Option.mem_def, Option.some.injEq] at hy
            obtain ⟨jj, hj1, hj2, hj3⟩ := hlast x (Option.mem_def.mp hx)
            rw [← hy]
            dsimp only
            rw [hsms, hj3]
            exact srt_wf_cross hwf (show jj < m.startIndex by omega) hilen
          · intro a ha
            rw [List.mem_append] at ha
            rcases ha with ha | ha
            · exact hQ a ha
            · rw [List.mem_singleton] at ha
              rw [ha]
              dsimp only
              rw [hsms, hems]
              exact ⟨he1.1, le_trans he1.2 hmono, htot⟩
          · intro a ha
            rw [List.getLast?_concat, Option.some.injEq] at ha
            rw [← ha]
            dsimp only
            exact ⟨m.endIndex, hjlen, by omega, hems⟩
        · rw [if_neg hconf]
          refine ⟨hch, hQ, fun a ha => ?_⟩
          obtain ⟨jj, h1, h2, h3⟩ := hlast a ha
          refine ⟨jj, h1, ?_, h3⟩
          show jj < min (s.srtIndex + 1) (srt.length - 1)
          omega

theorem pass1_inv (pdfSegments : List RefTurn) (srt : List Subtitle)
    (hwf : SrtWellFormed srt) (startIndex : Nat) :
    Pass1Inv srt (pass1 pdfSegments srt startIndex) :=
  foldl_preserve (Pass1Inv srt) (pass1Step pdfSegments srt)
    (turnIdxs pdfSegments startIndex)
    (fun s i _ hs => pass1Step_inv pdfSegments srt hwf s i hs) pass1Init
    ⟨List.chain'_nil, by intro a ha; simp [pass1Init] at ha,
      by intro a ha; simp [pass1Init] at ha⟩

theorem interpolate_mono (srt : List Subtitle) (hwf : SrtWellFormed srt)
    (hsne : srt ≠ []) (anchors : List Anchor)
    (hch : List.Chain' (fun a b => a.endMs ≤ b.startMs) anchors)
    (hQ : ∀ a ∈ anchors, 0 ≤ a.startMs ∧ a.startMs ≤ a.endMs ∧
      a.endMs ≤ (srt.getLastD dummySub).endMs)
    (i startIndex totalSegments : Nat) (hi1 : startIndex ≤ i)
    (hi2 : i < startIndex + totalSegments)
    (hni : ∀ a ∈ anchors, a.pdfIndex ≠ i) :
    (interpolateTimestamp i anchors (srt.getLastD dummySub).endMs
        totalSegments startIndex).1 ≤
      (interpolateTimestamp i anchors (srt.getLastD dummySub).endMs
        totalSegments startIndex).2 := by
  have htd : (0 : Int) ≤ (srt.getLastD dummySub).endMs := by
    rw [getLastD_eq_getD_last hsne]
    have hl : srt.length - 1 < srt.length := by
      have := List.length_pos.mpr hsne
      omega
    have h := srt_wf_entry hwf hl
    omega
  unfold interpolateTimestamp
  by_cases hanil : anchors = []
  · rw [if_pos hanil]
    dsimp only
    apply jsRound_int_add_nonneg
    have havg : (0 : ℚ) ≤ ((srt.getLastD dummySub).endMs : ℚ) /
        (totalSegments : ℚ) :=
      div_nonneg (by exact_mod_cast htd) (by positivity)
    exact le_min (by norm_num) (by linarith)
  · rw [if_neg hanil]
    have hspec := findPrevNext_spec i
      (fun a => 0 ≤ a.startMs ∧ a.startMs ≤ a.endMs ∧
        a.endMs ≤ (srt.getLastD dummySub).endMs)
      anchors none hni hQ hch
    rcases hpn : findPrevNext i anchors none with ⟨po, no⟩
    cases po with
    | some p =>
      cases no with
      | some n =>
        obtain ⟨hQp, hQn, hpn', hpi, hin⟩ := hspec.1 p n hpn
        dsimp only
        apply jsRound_int_add_nonneg
        have hdiff : (0 : ℚ) ≤ (n.startMs : ℚ) - (p.endMs : ℚ) := by
          have := hpn'
          push_cast
          exact_mod_cast sub_nonneg.mpr (by exact_mod_cast hpn')
        have hsb : (0 : ℚ) < (n.pdfIndex : ℚ) - (p.pdfIndex : ℚ) := by
          have : p.pdfIndex < n.pdfIndex := by omega
          push_cast
          have hc : (p.pdfIndex : ℚ) < (n.pdfIndex : ℚ) := by exact_mod_cast this
          linarith
        apply le_min (by norm_num)
        positivity
      | none =>
        obtain ⟨hQp, hpi⟩ := hspec.2.1 p hpn
        dsimp only
        apply jsRound_int_add_nonneg
        have hrem : (0 : ℚ) ≤ ((srt.getLastD dummySub).endMs : ℚ) -
            (p.endMs : ℚ) := by
          have := hQp.2.2
          exact sub_nonneg.mpr (by exact_mod_cast this)
        have hsa : (0 : ℚ) < ((startIndex : ℚ) + (totalSegments : ℚ) - 1) -
            (p.pdfIndex : ℚ) := by
          have h1 : p.pdfIndex + 1 < startIndex + totalSegments := by omega
          have h2 : ((p.pdfIndex : ℚ) + 1) <
              (startIndex : ℚ) + (totalSegments : ℚ) := by exact_mod_cast h1
          linarith
        apply le_min (by norm_num)
        positivity
    | none =>
      cases no with
      | some n =>
        obtain ⟨hQn, hin⟩ := hspec.2.2 n hpn
        dsimp only
        apply jsRound_int_add_nonneg
        have hav : (0 : ℚ) ≤ (n.startMs : ℚ) := by exact_mod_cast hQn.1
        have hden : (0 : ℚ) < (n.pdfIndex : ℚ) - (startIndex : ℚ) := by
          have h1 : startIndex < n.pdfIndex := by omega
          have h2 : (startIndex : ℚ) < (n.pdfIndex : ℚ) := by exact_mod_cast h1
          linarith
        apply le_min (by norm_num)
        positivity
      | none =>
        dsimp only
        apply jsRound_int_add_nonneg
        norm_num

set_option maxRecDepth 200000 in
/-- Counterexample to C4: with timed entries that satisfy the documented
input invariants (`0 ≤ startMs ≤ endMs` per entry, non-decreasing
`startMs`) but overlap, the interpolated segment between two anchors gets
`endMs < startMs`: anchor 1 ends at 20000 while anchor 2 starts at 11000,
so the gap is negative and the interpolated turn receives
`startMs = 15500 > endMs = 11900`. -/
theorem C4_interpolated_order_counterexample :
    pdfOv ≠ [] ∧ srtOv ≠ [] ∧
      (∀ e ∈ srtOv, 0 ≤ e.startMs ∧ e.startMs ≤ e.endMs) ∧
      List.Chain' (fun a b => a.startMs ≤ b.startMs) srtOv ∧
      ((align pdfOv srtOv).getD 1 dummySeg).endMs <
        ((align pdfOv srtOv).getD 1 dummySeg).startMs := by
  refine ⟨by decide, by decide, by decide,
    by rw [List.chain'_iff_get]; decide, ?_⟩
  with_unfolding_all decide

/-- C4 (amended): when the timed entries are in addition *non-overlapping*
(each entry's `endMs` at most the next entry's `startMs`), every segment
produced by `align` — anchored or interpolated — satisfies
`startMs ≤ endMs` (and both fields are always populated, the embedding
being total).  Under merely non-decreasing `startMs`, overlap can make an
interpolated segment violate the order. -/
theorem C4_segment_bounds_amended (pdfSegments : List RefTurn)
    (srt : List Subtitle) (hpdf : pdfSegments ≠ []) (hsrt : srt ≠ [])
    (hwf : SrtWellFormed srt) :
    ∀ seg ∈ align pdfSegments srt, seg.startMs ≤ seg.endMs := by
  intro seg hseg
  unfold align at hseg
  dsimp only at hseg
  rw [List.mem_map] at hseg
  obtain ⟨i, hi, hseg⟩ := hseg
  rw [turnIdxs, List.mem_range'_1] at hi
  obtain ⟨hch, hQ, _⟩ := pass1_inv pdfSegments srt hwf
    (findTranscriptStart pdfSegments srt)
  rw [← hseg]
  unfold pass2Segment
  set anchors := (pass1 pdfSegments srt
    (findTranscriptStart pdfSegments srt)).anchors with hanch
  cases hfind : anchors.find? (fun a => a.pdfIndex == i) with
  | some a =>
    dsimp only
    have hmem : a ∈ anchors := List.mem_of_find?_eq_some hfind
    exact (hQ a hmem).2.1
  | none =>
    dsimp only
    have hni : ∀ x ∈ anchors, x.pdfIndex ≠ i := by
      intro x hx
      have h := List.find?_eq_none.mp hfind x hx
      intro heq
      exact h (by rw [heq]; exact beq_self_eq_true i)
    exact interpolate_mono srt hwf hsrt anchors hch hQ i
      (findTranscriptStart pdfSegments srt)
      (pdfSegments.length - findTranscriptStart pdfSegments srt)
      hi.1 hi.2 hni

/-- Witness for the amended C4 at a concrete well-formed input. -/
theorem C4_segment_bounds_amended_witness :
    ((align pdfWf srtWf).getD 0 dummySeg).startMs ≤
      ((align pdfWf srtWf).getD 0 dummySeg).endMs :=
  C4_segment_bounds_amended pdfWf srtWf (by decide) (by decide)
    (by
      unfold SrtWellFormed
      refine ⟨by decide, ?_⟩
      rw [List.chain'_iff_get]
      decide)
    _ (getD_zero_mem _ _ (by with_unfolding_all decide))

end TSync
